import Mathlib

/-!
Verification of the `place_macro` token-rewriting engine.

This file is a shallow embedding of `place_macro_core/src/lib.rs`:
the token model (`TokenTree`), the literal decoder (`token_concat`),
the builtin operations (`ignore`, `identity`, `dollar`, `string`, `head`,
`tail`, `start`, `last`, `reverse`, `identifier`, `stringify`,
`replace_newline`, `str_replace`, `to_case`) and the stack-machine
rewrite interpreter (`place`).

Modelling conventions:
* `proc_macro2` spans carry no semantic information (they only position
  diagnostics), so they are dropped; `error_at` keeps the message text.
* Rust panics are modelled as the `Except.error` branch; the
  `compile_error! (...)` diagnostic token sequences produced by
  `error_at` are ordinary token output (`Except.ok`), exactly as in the
  source where `error_at` returns a `TokenStream` while `panic!` unwinds.
* A float literal carries the text that
  `v.number_part().parse::<f64>().unwrap().to_string()` would produce,
  since bit-level `f64` re-rendering is outside the token model; byte and
  byte-string literals likewise carry their `Display` rendering.  No part
  of the development depends on these carried strings.
-/

/-- `proc_macro2::Spacing`. -/
inductive Spacing where
  | alone
  | joint
deriving DecidableEq, Repr

/-- `proc_macro2::Delimiter`. -/
inductive Delim where
  | paren
  | bracket
  | brace
  | none
deriving DecidableEq, Repr

/-- The semantic content of a literal token, following the tags of
`litrs::Literal` used by `token_concat`. -/
inductive Lit where
  | bool (b : Bool)
  | int (n : Nat)
  | float (rendered : String)
  | char (c : Char)
  | str (s : String)
  | byte (raw : String)
  | byteStr (raw : String)
deriving DecidableEq, Repr

/-- `proc_macro2::TokenTree`: identifier, punctuation, literal or
delimited group. -/
inductive TokenTree where
  | ident (name : String)
  | punct (c : Char) (sp : Spacing)
  | lit (l : Lit)
  | group (d : Delim) (ts : List TokenTree)
deriving Repr

/-- A token sequence (`proc_macro2::TokenStream`). -/
abbrev TokenSeq := List TokenTree

/-- `error_at`: the `compile_error ! ("msg")` diagnostic token sequence
(spans dropped). -/
def errorAt (msg : String) : TokenSeq :=
  [ .ident "compile_error",
    .punct '!' .alone,
    .group .paren [.lit (.str msg)] ]

/-- `is_comma`. -/
def isComma : TokenTree → Bool
  | .punct c _ => c = ','
  | _ => false

/-- `ignore`: discards all input. -/
def ignore (_input : TokenSeq) : TokenSeq := []

/-- `identity`: returns the input unchanged. -/
def identity (input : TokenSeq) : TokenSeq := input

/-- `dollar`: zero arguments; returns a single stand-alone `$` punct,
or the `error_at` diagnostic if any input token is given. -/
def dollar (input : TokenSeq) : TokenSeq :=
  match input with
  | _ :: _ => errorAt "Macro `dollar` has no arguments."
  | [] => [.punct '$' .alone]

/-- `head`: first token, or empty. -/
def head (input : TokenSeq) : TokenSeq :=
  match input with
  | [] => []
  | t :: _ => [t]

/-- `tail`: all but the first token. -/
def tail (input : TokenSeq) : TokenSeq :=
  match input with
  | [] => []
  | _ :: ts => ts

/-- The `scan` in `start`: yields the previous element at each step,
keeping the current one as the new pending `last`. -/
def startScan (lst : TokenTree) : TokenSeq → TokenSeq
  | [] => []
  | t :: ts => lst :: startScan t ts

/-- `start`: all but the last token (via the `scan` trick of the source). -/
def start (input : TokenSeq) : TokenSeq :=
  match input with
  | [] => []
  | t :: ts => startScan t ts

/-- `last`: the final token, or empty (via the `fold` of the source). -/
def last (input : TokenSeq) : TokenSeq :=
  match input with
  | [] => []
  | f :: ts => [ts.foldl (fun _ c => c) f]

/-- `reverse`: tokens in reverse order. -/
def reverse (input : TokenSeq) : TokenSeq := input.reverse

mutual
/-- Weighted size of a token tree, used as the termination measure of the
stack loops (`token_concat`, `place`): identifiers weigh 2, other leaves 1,
a group weighs 2 plus its contents. -/
def TokenTree.wsize : TokenTree → Nat
  | .ident _ => 2
  | .punct _ _ => 1
  | .lit _ => 1
  | .group _ ts => 2 + wsizeList ts

def wsizeList : List TokenTree → Nat
  | [] => 0
  | t :: ts => t.wsize + wsizeList ts
end

/-- The loop of `token_concat`: an explicit stack of cursors; groups push
their contents, identifiers and literals append decoded text, punctuation
is dropped.  The `panic!("Integer is too large")` on an integer literal
that does not fit in `u128` is the `Except.error` branch. -/
def tokenConcatLoop : List TokenSeq → String → Except String String
  | [], res => .ok res
  | [] :: stk, res => tokenConcatLoop stk res
  | (t :: ts) :: stk, res =>
    match t with
    | .group _ g => tokenConcatLoop (g :: ts :: stk) res
    | .ident n => tokenConcatLoop (ts :: stk) (res ++ n)
    | .punct _ _ => tokenConcatLoop (ts :: stk) res
    | .lit (.bool b) => tokenConcatLoop (ts :: stk) (res ++ toString b)
    | .lit (.int n) =>
      if n < 2 ^ 128 then tokenConcatLoop (ts :: stk) (res ++ toString n)
      else .error "Integer is too large"
    | .lit (.float r) => tokenConcatLoop (ts :: stk) (res ++ r)
    | .lit (.char c) => tokenConcatLoop (ts :: stk) (res.push c)
    | .lit (.str s) => tokenConcatLoop (ts :: stk) (res ++ s)
    | .lit (.byte raw) => tokenConcatLoop (ts :: stk) (res ++ raw)
    | .lit (.byteStr raw) => tokenConcatLoop (ts :: stk) (res ++ raw)
  termination_by stk _ => (stk.map wsizeList).sum + stk.length
  decreasing_by
    all_goals simp [wsizeList, TokenTree.wsize]
    all_goals omega

/-- `token_concat`: decoded text of the whole input. -/
def token_concat (input : TokenSeq) : Except String String :=
  tokenConcatLoop [input] ""

/-- `string`: one string literal holding the concatenated decoded text. -/
def string (input : TokenSeq) : Except String TokenSeq :=
  (token_concat input).map fun res => [.lit (.str res)]

/-- `identifier`: like `string` but emitting an identifier token.
The validity check of `Ident::new` (which requires the text to be a
syntactically valid identifier) is not modelled; no claim depends on it. -/
def identifier (input : TokenSeq) : Except String TokenSeq :=
  (token_concat input).map fun res => [.ident res]

/-- `get_str_lit`: unwrap arbitrarily nested single-token groups down to a
string literal; any group with zero or at least two tokens, or a terminal
token that is not a string literal, gives `none`. -/
def get_str_lit : TokenTree → Option String
  | .group _ [t1] => get_str_lit t1
  | .group _ _ => none
  | .lit (.str s) => some s
  | _ => none

/-- Rust `char::is_whitespace` (the Unicode `White_Space` class). -/
def isRustWhitespace (c : Char) : Bool :=
  c = '\t' || c = '\n' || c = '\x0b' || c = '\x0c' || c = '\r' || c = ' '
    || c = '\x85' || c = '\xa0' || c = ' '
    || (' ' ≤ c && c ≤ ' ')
    || c = ' ' || c = ' ' || c = ' ' || c = ' '
    || c = '　'

mutual
/-- The character loop of `replace_newline` (lines 177-191): any character
other than a newline is copied; a newline appends the replacement and
switches to whitespace skipping. -/
def repnlChars (r : List Char) : List Char → List Char
  | [] => []
  | c :: cs =>
    if c = '\n' then r ++ repnlSkip r cs else c :: repnlChars r cs

/-- The inner `for` of `replace_newline`: skip whitespace, then copy the
first non-whitespace character and resume the outer loop. -/
def repnlSkip (r : List Char) : List Char → List Char
  | [] => []
  | c :: cs =>
    if isRustWhitespace c then repnlSkip r cs else c :: repnlChars r cs
end

/-- The body of `replace_newline` after argument parsing (lines 168-195):
both arguments must be (possibly group-wrapped) string literals. -/
def replaceNewlineBody (s r : TokenTree) : TokenSeq :=
  match get_str_lit s with
  | Option.none => errorAt "Expected string literal"
  | some sv =>
    match get_str_lit r with
    | Option.none => errorAt "Expected string literal"
    | some rv => [.lit (.str ⟨repnlChars rv.data sv.data⟩)]

/-- `replace_newline`: the argument micro-parser (two arguments, comma
separated, one trailing comma tolerated) followed by the rewrite body. -/
def replace_newline (input : TokenSeq) : TokenSeq :=
  match input with
  | [] => errorAt "Expected two arguments, got 0"
  | s :: i1 =>
    match i1 with
    | [] => errorAt "Expected more arguments"
    | c :: i2 =>
      if ¬ isComma c then errorAt "Expected comma."
      else
        match i2 with
        | [] => errorAt "Expected two arguments, got 1"
        | r :: i3 =>
          match i3 with
          | [] => replaceNewlineBody s r
          | n :: i4 =>
            if isComma n then
              match i4 with
              | [] => replaceNewlineBody s r
              | _ :: _ => errorAt "Macro takes only 2 arguments"
            else errorAt "Unexpected token in macro invocation"

/-- One step of Rust `str::replace` for a non-empty pattern `f`: at each
position, if `f` is a prefix, emit `t` and continue past the match,
otherwise copy one character (left-to-right, non-overlapping). -/
def replaceNE (f t : List Char) : List Char → List Char
  | [] => []
  | c :: cs =>
    if f.isPrefixOf (c :: cs) then t ++ replaceNE f t (cs.drop (f.length - 1))
    else c :: replaceNE f t cs
  termination_by l => l.length
  decreasing_by
    · simp [List.length_drop]; omega
    · simp

/-- Rust `str::replace`: the empty pattern matches at every character
boundary (including both ends); otherwise `replaceNE`. -/
def strFindReplace (s f t : List Char) : List Char :=
  if f = [] then t ++ (s.map fun c => c :: t).flatten
  else replaceNE f t s

/-- The body of `str_replace` after argument parsing (lines 224-241). -/
def strReplaceBody (s f t : TokenTree) : TokenSeq :=
  match get_str_lit s with
  | Option.none => errorAt "Expected string literal"
  | some sv =>
    match get_str_lit f with
    | Option.none => errorAt "Expected string literal"
    | some fv =>
      match get_str_lit t with
      | Option.none => errorAt "Expected string literal"
      | some tv => [.lit (.str ⟨strFindReplace sv.data fv.data tv.data⟩)]

/-- `str_replace`: three comma-separated string-literal arguments, one
trailing comma tolerated; replaces every occurrence of the second inside
the first with the third. -/
def str_replace (input : TokenSeq) : TokenSeq :=
  match input with
  | [] => errorAt "Expected 3 arguments, got 0"
  | s :: i1 =>
    match i1 with
    | [] => errorAt "Expected more arguments"
    | c :: i2 =>
      if ¬ isComma c then errorAt "Expected comma."
      else
        match i2 with
        | [] => errorAt "Expected 3 arguments, got 1"
        | f :: i3 =>
          match i3 with
          | [] => errorAt "Expected more arguments"
          | c2 :: i4 =>
            if ¬ isComma c2 then errorAt "Expected comma."
            else
              match i4 with
              | [] => errorAt "Expected 3 arguments, got 2"
              | t :: i5 =>
                match i5 with
                | [] => strReplaceBody s f t
                | n :: i6 =>
                  if isComma n then
                    match i6 with
                    | [] => strReplaceBody s f t
                    | _ :: _ => errorAt "Macro takes only 3 arguments"
                  else errorAt "Unexpected token in macro invocation"

/-- The six case styles of `convert_case::Case` used by `get_case`. -/
inductive Case where
  | upperFlat
  | flat
  | camel
  | pascal
  | snake
  | upperSnake
deriving DecidableEq, Repr

/-- Word delimiters of the `convert_case` splitter (dropped on split). -/
def isWordDelim (c : Char) : Bool := c = '_' || c = '-' || c = ' '

/-- A word boundary between `prev` and `c` (with lookahead `next`),
modelling the default boundaries of the `convert_case` crate:
lower→upper, acronym (upper-upper-lower), and letter↔digit transitions. -/
def caseBoundary (prev c : Char) (next : Option Char) : Bool :=
  (prev.isLower && c.isUpper) ||
  (prev.isUpper && c.isUpper &&
    (match next with | some n => n.isLower | Option.none => false)) ||
  (prev.isDigit && ¬ c.isDigit) ||
  (¬ prev.isDigit && c.isDigit)

/-- Splitter of `convert_case`: walks the characters keeping the previous
in-word character, flushing the current word at delimiters and at case
boundaries. -/
def splitCaseGo (prev : Option Char) (cur : List Char) :
    List Char → List (List Char)
  | [] => if cur = [] then [] else [cur]
  | c :: cs =>
    if isWordDelim c then
      (if cur = [] then [] else [cur]) ++ splitCaseGo Option.none [] cs
    else
      match prev with
      | some p =>
        if caseBoundary p c cs.head? then
          (if cur = [] then [] else [cur]) ++ splitCaseGo (some c) [c] cs
        else splitCaseGo (some c) (cur ++ [c]) cs
      | Option.none => splitCaseGo (some c) (cur ++ [c]) cs

/-- Word segmentation of an identifier, as in `convert_case`. -/
def caseSplitWords (s : String) : List String :=
  (splitCaseGo Option.none [] s.data).map fun w => ⟨w⟩

/-- A word in title position: first character upper, rest lower. -/
def capWord (w : String) : String := w.toLower.capitalize

/-- Join a word list according to a `Case` (`convert_case::Casing::to_case`). -/
def applyCase : Case → List String → String
  | .upperFlat, ws => String.join (ws.map (·.toUpper))
  | .flat, ws => String.join (ws.map (·.toLower))
  | .camel, ws =>
    match ws with
    | [] => ""
    | w :: rest => w.toLower ++ String.join (rest.map capWord)
  | .pascal, ws => String.join (ws.map capWord)
  | .snake, ws => String.intercalate "_" (ws.map (·.toLower))
  | .upperSnake, ws => String.intercalate "_" (ws.map (·.toUpper))

/-- `i.to_case(c)` of the `convert_case` crate. -/
def toCaseConvert (c : Case) (i : String) : String :=
  applyCase c (caseSplitWords i)

/-- `get_case`: the six case-sensitive specifier spellings; the
`panic` with message naming the specifier in the default arm is the
`Except.error` branch. -/
def get_case (spec : String) (i : String) : Except String String :=
  match spec with
  | "TOCASE" => .ok (toCaseConvert .upperFlat i)
  | "tocase" => .ok (toCaseConvert .flat i)
  | "toCase" => .ok (toCaseConvert .camel i)
  | "ToCase" => .ok (toCaseConvert .pascal i)
  | "to_case" => .ok (toCaseConvert .snake i)
  | "TO_CASE" => .ok (toCaseConvert .upperSnake i)
  | _ => .error ("Unknown case specifier: \x27" ++ spec ++ "\x27")

/-- The body of `to_case` after argument parsing (lines 266-279): the
destination must be a (possibly group-wrapped) string literal, the source
an identifier token. -/
def toCaseBody (dst src : TokenTree) : Except String TokenSeq :=
  match get_str_lit dst with
  | Option.none => .ok (errorAt "Expected string literal")
  | some d =>
    match src with
    | .ident l => (get_case d l).map fun s => [.ident s]
    | _ => .ok (errorAt "Expected identifier")

/-- `to_case`: two comma-separated arguments (case specifier, identifier),
one trailing comma tolerated.  The result is `Except` because the unknown
specifier arm of `get_case` panics. -/
def to_case (input : TokenSeq) : Except String TokenSeq :=
  match input with
  | [] => .ok (errorAt "Expected 2 arguments.")
  | dst :: i1 =>
    match i1 with
    | [] => .ok (errorAt "Expected more arguments")
    | c :: i2 =>
      if ¬ isComma c then .ok (errorAt "Expected comma.")
      else
        match i2 with
        | [] => .ok (errorAt "Expected 2 arguments")
        | src :: i3 =>
          match i3 with
          | [] => toCaseBody dst src
          | n :: i4 =>
            if isComma n then
              match i4 with
              | [] => toCaseBody dst src
              | _ :: _ => .ok (errorAt "Macro takes only 2 arguments")
            else .ok (errorAt "Unexpected token in macro invocation")

/-- A punctuation token with joint spacing (no space after it when
re-printing). -/
def jointPunct : TokenTree → Bool
  | .punct _ .joint => true
  | _ => false

/-- Escaping used by `Literal::string` when re-printing a string literal. -/
def escapeStringLit (s : String) : String :=
  ⟨s.data.flatMap fun c => if c = '"' || c = '\\' then ['\\', c] else [c]⟩

/-- Surface rendering of a literal token (its `Display`). -/
def litToString : Lit → String
  | .bool b => toString b
  | .int n => toString n
  | .float r => r
  | .char c => "\x27" ++ String.singleton c ++ "\x27"
  | .str s => "\"" ++ escapeStringLit s ++ "\""
  | .byte raw => raw
  | .byteStr raw => raw

mutual
/-- `Display` of one token tree, after `proc_macro2`. -/
def tokenToString : TokenTree → String
  | .ident n => n
  | .punct c _ => String.singleton c
  | .lit l => litToString l
  | .group .brace ts =>
    "\x7b " ++ tokensToString ts
      ++ (match ts with | [] => "" | _ :: _ => " ") ++ "\x7d"
  | .group .paren ts => "(" ++ tokensToString ts ++ ")"
  | .group .bracket ts => "[" ++ tokensToString ts ++ "]"
  | .group .none ts => tokensToString ts

/-- `Display` of a token sequence: one space between tokens, except after
a punctuation token with joint spacing. -/
def tokensToString : List TokenTree → String
  | [] => ""
  | [t] => tokenToString t
  | t :: t2 :: ts =>
    tokenToString t ++ (if jointPunct t then "" else " ")
      ++ tokensToString (t2 :: ts)
end

/-- `stringify`: one string literal holding the re-printed input. -/
def stringify (input : TokenSeq) : TokenSeq :=
  [.lit (.str (tokensToString input))]

/-- `name.trim_matches('_')`: strip all leading and trailing underscores. -/
def trimUnderscores (s : String) : String :=
  ⟨((s.data.dropWhile fun c => c = '_').reverse.dropWhile
      fun c => c = '_').reverse⟩

/-- The `Macro` enum: the marker registry tags (spans dropped). -/
inductive Macro where
  | Ignore
  | Identity
  | Dollar
  | String
  | Head
  | Tail
  | Start
  | Last
  | Reverse
  | Identifier
  | Stringify
  | ReplaceNewline
  | StrReplace
  | ToCase
deriving DecidableEq, Repr

/-- Rust `str::starts_with` on the character list. -/
def strStartsWith (s pre : String) : Bool := pre.data.isPrefixOf s.data

/-- Rust `str::ends_with` on the character list. -/
def strEndsWith (s suf : String) : Bool := suf.data.isSuffixOf s.data

/-- Rust `str::to_lowercase`, character-wise (ASCII-faithful; marker
spellings are ASCII). -/
def strToLower (s : String) : String := ⟨s.data.map Char.toLower⟩

/-- `Macro::from_name`: the marker registry.  All spellings are exact and
case-sensitive except the `to_case` family, recognized case-insensitively
among `__`-fenced names.  (Defined outside the `Macro` namespace because
the constructor `Macro.String` would shadow the `String` type there.) -/
def macroFromName (s : String) : Option Macro :=
  match s with
  | "__ignore__" => some .Ignore
  | "__identity__" => some .Identity
  | "__id__" => some .Identity
  | "__dollar__" => some .Dollar
  | "__s__" => some .Dollar
  | "__string__" => some .String
  | "__str__" => some .String
  | "__head__" => some .Head
  | "__tail__" => some .Tail
  | "__start__" => some .Start
  | "__last__" => some .Last
  | "__reverse__" => some .Reverse
  | "__identifier__" => some .Identifier
  | "__ident__" => some .Identifier
  | "__stringify__" => some .Stringify
  | "__strfy__" => some .Stringify
  | "__replace_newline__" => some .ReplaceNewline
  | "__repnl__" => some .ReplaceNewline
  | "__str_replace__" => some .StrReplace
  | "__repstr__" => some .StrReplace
  | _ =>
    if strStartsWith s "__" && strEndsWith s "__" &&
        (strToLower s = "__tocase__" || strToLower s = "__to_case__")
    then some .ToCase
    else Option.none

/-- `Macro::invoke`: dispatch a pending marker to its builtin. -/
def macroInvoke (m : Macro) (input : TokenSeq) : Except String TokenSeq :=
  match m with
  | .Ignore => .ok (ignore input)
  | .Identity => .ok (identity input)
  | .Dollar => .ok (dollar input)
  | .String => string input
  | .Head => .ok (head input)
  | .Tail => .ok (tail input)
  | .Start => .ok (start input)
  | .Last => .ok (last input)
  | .Reverse => .ok (reverse input)
  | .Identifier => identifier input
  | .Stringify => .ok (stringify input)
  | .ReplaceNewline => .ok (replace_newline input)
  | .StrReplace => .ok (str_replace input)
  | .ToCase => to_case input

/-- A rewrite frame of `place`: remaining cursor, pending marker,
delimiter for group reconstruction. -/
abbrev Frame := TokenSeq × Option Macro × Delim

/-- Termination measure of the `place` loop. -/
def framesMeasure (frames : List Frame) : Nat :=
  (frames.map fun f => wsizeList f.1).sum + frames.length

/-- The main loop of `place` (lines 354-455): an explicit stack of rewrite
frames and one output accumulator per frame.  The numbered `Except.error`
strings are the `expect("n")` panics of the source (all unreachable from
`place`); real panics from builtins also surface as `Except.error`, while
the `return error_at(...)` statements of `place` are ordinary `.ok`
results carrying the `compile_error` diagnostic tokens. -/
def placeLoop : List Frame → List TokenSeq → Except String TokenSeq
  | [], res =>
    match res with
    | r :: _ => .ok r
    | [] => .error "8"
  | ([], m, d) :: fs, res =>
    match m with
    | some mac =>
      match res with
      | t :: r :: res2 =>
        match macroInvoke mac t with
        | .error e => .error e
        | .ok out => placeLoop fs ((r ++ out) :: res2)
      | [_] => .error "2"
      | [] => .error "1"
    | Option.none =>
      if res.length ≠ 1 then
        match res with
        | t :: r :: res2 => placeLoop fs ((r ++ [.group d t]) :: res2)
        | _ => .error "3"
      else placeLoop fs res
  | (t :: rest, m, d) :: fs, res =>
    match t with
    | .group gd ts =>
      placeLoop ((ts, Option.none, gd) :: (rest, m, d) :: fs) ([] :: res)
    | .punct c sp =>
      match res with
      | r :: res2 =>
        placeLoop ((rest, m, d) :: fs) ((r ++ [.punct c sp]) :: res2)
      | [] => .error "5"
    | .lit l =>
      match res with
      | r :: res2 =>
        placeLoop ((rest, m, d) :: fs) ((r ++ [.lit l]) :: res2)
      | [] => .error "5"
    | .ident name =>
      match macroFromName name with
      | Option.none =>
        match res with
        | r :: res2 =>
          placeLoop ((rest, m, d) :: fs) ((r ++ [.ident name]) :: res2)
        | [] => .error "6"
      | some .Dollar =>
        match res with
        | r :: res2 =>
          placeLoop ((rest, m, d) :: fs) ((r ++ dollar []) :: res2)
        | [] => .error "7"
      | some mac =>
        match rest with
        | .group gd ts :: rest2 =>
          match mac with
          | .Identity =>
            match res with
            | r :: res2 => placeLoop ((rest2, m, d) :: fs) ((r ++ ts) :: res2)
            | [] => .error "7"
          | .ToCase =>
            placeLoop
              ((.lit (.str (trimUnderscores name)) :: .punct ',' .alone :: ts,
                  some mac, gd) :: (rest2, m, d) :: fs)
              ([] :: res)
          | _ =>
            placeLoop ((ts, some mac, gd) :: (rest2, m, d) :: fs) ([] :: res)
        | .ident iname :: rest2 =>
          match mac with
          | .Ignore =>
            match macroFromName iname with
            | some .Dollar => placeLoop ((rest2, m, d) :: fs) res
            | some _ =>
              match rest2 with
              | .group _ ts2 :: rest3 =>
                placeLoop ((ts2 ++ rest3, m, d) :: fs) res
              | _ :: _ => .ok (errorAt "Expected \x27(\x27")
              | [] => .ok (errorAt "Expected \x27(\x27")
            | Option.none => .ok (errorAt "Expected \x27(\x27 or builtin macro")
          | _ => .ok (errorAt "Expected \x27(\x27")
        | .punct _ _ :: _ => .ok (errorAt "Expected \x27(\x27")
        | .lit _ :: _ => .ok (errorAt "Expected \x27(\x27")
        | [] => .ok (errorAt "Expected \x27(\x27 after builtin macro")
  termination_by frames _ => framesMeasure frames
  decreasing_by
    all_goals
      have happ : ∀ a b : List TokenTree,
          wsizeList (a ++ b) = wsizeList a + wsizeList b := by
        intro a b
        induction a with
        | nil => simp [wsizeList]
        | cons t ts iha => simp [wsizeList, iha]; omega
      simp [framesMeasure, wsizeList, TokenTree.wsize, happ]
    all_goals omega

/-- `place`: the rewrite interpreter, started with one frame holding the
whole input, no pending marker, delimiter `none`, and one empty output
accumulator. -/
def place (input : TokenSeq) : Except String TokenSeq :=
  placeLoop [(input, Option.none, Delim.none)] [[]]

/-- Result of one recursive rewrite: a builtin panic, an aborting
diagnostic (a `return error_at(...)` of `place`, which becomes the entire
result), or the rewritten sequence. -/
inductive WalkRes where
  | panic (e : String)
  | diag (ts : TokenSeq)
  | ok (ts : TokenSeq)
deriving Repr

/-- Sequencing on `WalkRes`: panics and aborting diagnostics propagate. -/
def WalkRes.andThen (w : WalkRes) (f : TokenSeq → WalkRes) : WalkRes :=
  match w with
  | .panic e => .panic e
  | .diag ts => .diag ts
  | .ok ts => f ts

/-- The recursive rewrite of §4.1 of the spec, written as a direct
structural walk (the second definition of the refinement claim): groups
are rewritten recursively and rebuilt with the same delimiter; a marker
(other than `dollar` and `identity`) first fully rewrites its argument
group and only then invokes its builtin on the result, so evaluation is
innermost-first; `identity` splices its argument group unrewritten;
`dollar` is resolved in place; the `to_case` family gets its
underscore-trimmed spelling and a comma prepended to the argument group
before the recursive rewrite. -/
def rewriteSpec : TokenSeq → WalkRes
  | [] => .ok []
  | .group gd ts :: rest =>
    (rewriteSpec ts).andThen fun out =>
      (rewriteSpec rest).andThen fun r => .ok (.group gd out :: r)
  | .punct c sp :: rest =>
    (rewriteSpec rest).andThen fun r => .ok (.punct c sp :: r)
  | .lit l :: rest =>
    (rewriteSpec rest).andThen fun r => .ok (.lit l :: r)
  | .ident name :: rest =>
    match macroFromName name with
    | Option.none =>
      (rewriteSpec rest).andThen fun r => .ok (.ident name :: r)
    | some .Dollar =>
      (rewriteSpec rest).andThen fun r => .ok (dollar [] ++ r)
    | some mac =>
      match rest with
      | .group _ ts :: rest2 =>
        match mac with
        | .Identity =>
          (rewriteSpec rest2).andThen fun r => .ok (ts ++ r)
        | .ToCase =>
          (rewriteSpec
              (.lit (.str (trimUnderscores name)) :: .punct ',' .alone :: ts)
            ).andThen fun out =>
            match macroInvoke mac out with
            | .error e => .panic e
            | .ok res =>
              (rewriteSpec rest2).andThen fun r => .ok (res ++ r)
        | _ =>
          (rewriteSpec ts).andThen fun out =>
            match macroInvoke mac out with
            | .error e => .panic e
            | .ok res =>
              (rewriteSpec rest2).andThen fun r => .ok (res ++ r)
      | .ident iname :: rest2 =>
        match mac with
        | .Ignore =>
          match macroFromName iname with
          | some .Dollar => rewriteSpec rest2
          | some _ =>
            match rest2 with
            | .group _ ts2 :: rest3 => rewriteSpec (ts2 ++ rest3)
            | _ :: _ => .diag (errorAt "Expected \x27(\x27")
            | [] => .diag (errorAt "Expected \x27(\x27")
          | Option.none => .diag (errorAt "Expected \x27(\x27 or builtin macro")
        | _ => .diag (errorAt "Expected \x27(\x27")
      | .punct _ _ :: _ => .diag (errorAt "Expected \x27(\x27")
      | .lit _ :: _ => .diag (errorAt "Expected \x27(\x27")
      | [] => .diag (errorAt "Expected \x27(\x27 after builtin macro")
  termination_by ts => wsizeList ts
  decreasing_by
    all_goals
      have happ : ∀ a b : List TokenTree,
          wsizeList (a ++ b) = wsizeList a + wsizeList b := by
        intro a b
        induction a with
        | nil => simp [wsizeList]
        | cons t ts iha => simp [wsizeList, iha]; omega
      simp [wsizeList, TokenTree.wsize, happ]
    all_goals omega

mutual
/-- A token tree containing no identifier whose spelling is a recognized
marker, at any nesting depth. -/
def markerFree : TokenTree → Bool
  | .ident n => (macroFromName n).isNone
  | .punct _ _ => true
  | .lit _ => true
  | .group _ ts => markerFreeList ts

def markerFreeList : List TokenTree → Bool
  | [] => true
  | t :: ts => markerFree t && markerFreeList ts
end

/-- The transformation the spec describes for `replace_newline` (§4.2),
written after its words: each newline character plus all
immediately-following whitespace is replaced by the replacement text. -/
def replaceNewlineSpec (r : List Char) : List Char → List Char
  | [] => []
  | c :: cs =>
    if c = '\n' then
      r ++ replaceNewlineSpec r (cs.dropWhile isRustWhitespace)
    else c :: replaceNewlineSpec r cs
  termination_by l => l.length
  decreasing_by
    · have hs : cs.dropWhile isRustWhitespace <:+ cs :=
        List.dropWhile_suffix isRustWhitespace
      have := hs.sublist.length_le
      simp
      omega
    · simp

/-- Arbitrarily many single-token group wrappers around a token. -/
def nestGroups : List Delim → TokenTree → TokenTree
  | [], t => t
  | d :: ds, t => .group d [nestGroups ds t]

/-- `wsizeList` is additive over append. -/
theorem wsizeList_append (a b : List TokenTree) :
    wsizeList (a ++ b) = wsizeList a + wsizeList b := by
  induction a with
  | nil => simp [wsizeList]
  | cons t ts ih => simp [wsizeList, ih]; omega

theorem framesMeasure_cons (c : TokenSeq) (m : Option Macro) (d : Delim)
    (fs : List Frame) :
    framesMeasure ((c, m, d) :: fs) = wsizeList c + framesMeasure fs + 1 := by
  simp [framesMeasure]; omega

theorem placeLoop_rewriteSpec (n : Nat) :
    ∀ (c : TokenSeq) (m : Option Macro) (d : Delim) (fs : List Frame)
      (acc : TokenSeq) (accs : List TokenSeq),
      framesMeasure ((c, m, d) :: fs) ≤ n →
      placeLoop ((c, m, d) :: fs) (acc :: accs) =
        match rewriteSpec c with
        | .panic e => .error e
        | .diag ts => .ok ts
        | .ok out => placeLoop (([], m, d) :: fs) ((acc ++ out) :: accs) := by
  induction n with
  | zero =>
    intro c m d fs acc accs h
    exfalso
    simp [framesMeasure_cons] at h
  | succ n ih =>
    intro c m d fs acc accs h
    match c with
    | [] =>
      simp [rewriteSpec]
    | .punct ch sp :: rest =>
      rw [show placeLoop ((TokenTree.punct ch sp :: rest, m, d) :: fs)
            (acc :: accs)
          = placeLoop ((rest, m, d) :: fs)
            ((acc ++ [TokenTree.punct ch sp]) :: accs) from by
        simp [placeLoop]]
      rw [ih rest m d fs (acc ++ [TokenTree.punct ch sp]) accs (by
        simp [framesMeasure_cons, wsizeList, TokenTree.wsize] at h ⊢; omega)]
      rw [show rewriteSpec (TokenTree.punct ch sp :: rest)
          = (rewriteSpec rest).andThen fun r => .ok (.punct ch sp :: r) from by
        simp [rewriteSpec]]
      cases rewriteSpec rest <;> simp [WalkRes.andThen]
    | .lit l :: rest =>
      rw [show placeLoop ((TokenTree.lit l :: rest, m, d) :: fs) (acc :: accs)
          = placeLoop ((rest, m, d) :: fs)
            ((acc ++ [TokenTree.lit l]) :: accs) from by
        simp [placeLoop]]
      rw [ih rest m d fs (acc ++ [TokenTree.lit l]) accs (by
        simp [framesMeasure_cons, wsizeList, TokenTree.wsize] at h ⊢; omega)]
      rw [show rewriteSpec (TokenTree.lit l :: rest)
          = (rewriteSpec rest).andThen fun r => .ok (.lit l :: r) from by
        simp [rewriteSpec]]
      cases rewriteSpec rest <;> simp [WalkRes.andThen]
    | .group gd ts :: rest =>
      rw [show placeLoop ((TokenTree.group gd ts :: rest, m, d) :: fs)
            (acc :: accs)
          = placeLoop ((ts, Option.none, gd) :: (rest, m, d) :: fs)
            ([] :: acc :: accs) from by
        simp [placeLoop]]
      rw [ih ts Option.none gd ((rest, m, d) :: fs) [] (acc :: accs) (by
        simp [framesMeasure_cons, wsizeList, TokenTree.wsize] at h ⊢; omega)]
      rw [show rewriteSpec (TokenTree.group gd ts :: rest)
          = (rewriteSpec ts).andThen (fun out =>
              (rewriteSpec rest).andThen fun r =>
                .ok (.group gd out :: r)) from by
        simp [rewriteSpec]]
      cases hts : rewriteSpec ts with
      | panic e => simp [WalkRes.andThen]
      | diag dts => simp [WalkRes.andThen]
      | ok out =>
        simp only [WalkRes.andThen, List.nil_append]
        rw [show placeLoop (([], Option.none, gd) :: (rest, m, d) :: fs)
              (out :: acc :: accs)
            = placeLoop ((rest, m, d) :: fs)
              ((acc ++ [TokenTree.group gd out]) :: accs) from by
          simp [placeLoop]]
        rw [ih rest m d fs (acc ++ [TokenTree.group gd out]) accs (by
          simp [framesMeasure_cons, wsizeList, TokenTree.wsize] at h ⊢; omega)]
        cases rewriteSpec rest <;> simp [WalkRes.andThen]
    | .ident name :: rest =>
      cases hm : macroFromName name with
      | none =>
        rw [show placeLoop ((TokenTree.ident name :: rest, m, d) :: fs)
              (acc :: accs)
            = placeLoop ((rest, m, d) :: fs)
              ((acc ++ [TokenTree.ident name]) :: accs) from by
          simp [placeLoop, hm]]
        rw [ih rest m d fs (acc ++ [TokenTree.ident name]) accs (by
          simp [framesMeasure_cons, wsizeList, TokenTree.wsize] at h ⊢; omega)]
        rw [show rewriteSpec (TokenTree.ident name :: rest)
            = (rewriteSpec rest).andThen fun r => .ok (.ident name :: r) from by
          simp [rewriteSpec, hm]]
        cases rewriteSpec rest <;> simp [WalkRes.andThen]
      | some mac =>
        cases mac
        case Dollar =>
          rw [show placeLoop ((TokenTree.ident name :: rest, m, d) :: fs)
                (acc :: accs)
              = placeLoop ((rest, m, d) :: fs)
                ((acc ++ dollar []) :: accs) from by
            simp [placeLoop, hm]]
          rw [ih rest m d fs (acc ++ dollar []) accs (by
            simp [framesMeasure_cons, wsizeList, TokenTree.wsize] at h ⊢; omega)]
          rw [show rewriteSpec (TokenTree.ident name :: rest)
              = (rewriteSpec rest).andThen fun r => .ok (dollar [] ++ r) from by
            simp [rewriteSpec, hm]]
          cases rewriteSpec rest <;> simp [WalkRes.andThen]
        case Identity =>
          cases rest with
          | nil => simp [placeLoop, rewriteSpec, hm]
          | cons t2 rest2 =>
            cases t2 with
            | punct c2 sp2 => simp [placeLoop, rewriteSpec, hm]
            | lit l2 => simp [placeLoop, rewriteSpec, hm]
            | ident iname => simp [placeLoop, rewriteSpec, hm]
            | group gd2 ts2 =>
              rw [show placeLoop
                    ((TokenTree.ident name :: TokenTree.group gd2 ts2 :: rest2,
                      m, d) :: fs) (acc :: accs)
                  = placeLoop ((rest2, m, d) :: fs)
                    ((acc ++ ts2) :: accs) from by
                simp [placeLoop, hm]]
              rw [ih rest2 m d fs (acc ++ ts2) accs (by
                simp [framesMeasure_cons, wsizeList, TokenTree.wsize] at h ⊢
                omega)]
              rw [show rewriteSpec
                    (TokenTree.ident name :: TokenTree.group gd2 ts2 :: rest2)
                  = (rewriteSpec rest2).andThen fun r => .ok (ts2 ++ r) from by
                simp [rewriteSpec, hm]]
              cases rewriteSpec rest2 <;> simp [WalkRes.andThen]
        case ToCase =>
          cases rest with
          | nil => simp [placeLoop, rewriteSpec, hm]
          | cons t2 rest2 =>
            cases t2 with
            | punct c2 sp2 => simp [placeLoop, rewriteSpec, hm]
            | lit l2 => simp [placeLoop, rewriteSpec, hm]
            | ident iname => simp [placeLoop, rewriteSpec, hm]
            | group gd2 ts2 =>
              rw [show placeLoop
                    ((TokenTree.ident name :: TokenTree.group gd2 ts2 :: rest2,
                      m, d) :: fs) (acc :: accs)
                  = placeLoop
                    ((TokenTree.lit (Lit.str (trimUnderscores name)) ::
                        TokenTree.punct ',' Spacing.alone :: ts2,
                      some Macro.ToCase, gd2) :: (rest2, m, d) :: fs)
                    ([] :: acc :: accs) from by
                simp [placeLoop, hm]]
              rw [ih (TokenTree.lit (Lit.str (trimUnderscores name)) ::
                    TokenTree.punct ',' Spacing.alone :: ts2)
                  (some Macro.ToCase) gd2 ((rest2, m, d) :: fs) [] (acc :: accs)
                  (by
                simp [framesMeasure_cons, wsizeList, TokenTree.wsize] at h ⊢
                omega)]
              rw [show rewriteSpec
                    (TokenTree.ident name :: TokenTree.group gd2 ts2 :: rest2)
                  = (rewriteSpec
                      (TokenTree.lit (Lit.str (trimUnderscores name)) ::
                        TokenTree.punct ',' Spacing.alone :: ts2)).andThen
                      fun out =>
                        match macroInvoke Macro.ToCase out with
                        | .error e => WalkRes.panic e
                        | .ok res =>
                          (rewriteSpec rest2).andThen fun r =>
                            WalkRes.ok (res ++ r) from by
                simp [rewriteSpec, hm]]
              cases hts : rewriteSpec
                  (TokenTree.lit (Lit.str (trimUnderscores name)) ::
                    TokenTree.punct ',' Spacing.alone :: ts2) with
              | panic e => simp [WalkRes.andThen]
              | diag dts => simp [WalkRes.andThen]
              | ok out =>
                simp only [WalkRes.andThen, List.nil_append]
                rw [show placeLoop
                      (([], some Macro.ToCase, gd2) :: (rest2, m, d) :: fs)
                      (out :: acc :: accs)
                    = (match macroInvoke Macro.ToCase out with
                      | .error e => Except.error e
                      | .ok res =>
                        placeLoop ((rest2, m, d) :: fs)
                          ((acc ++ res) :: accs)) from by
                  simp [placeLoop]]
                split
                next e heq => rfl
                next res heq =>
                  rw [ih rest2 m d fs (acc ++ res) accs (by
                    simp [framesMeasure_cons, wsizeList, TokenTree.wsize]
                      at h ⊢
                    omega)]
                  cases rewriteSpec rest2 <;> simp [WalkRes.andThen]
        case Ignore =>
          cases rest with
          | nil => simp [placeLoop, rewriteSpec, hm]
          | cons t2 rest2 =>
            cases t2 with
            | punct c2 sp2 => simp [placeLoop, rewriteSpec, hm]
            | lit l2 => simp [placeLoop, rewriteSpec, hm]
            | group gd2 ts2 =>
              rw [show placeLoop
                    ((TokenTree.ident name :: TokenTree.group gd2 ts2 :: rest2,
                      m, d) :: fs) (acc :: accs)
                  = placeLoop ((ts2, some Macro.Ignore, gd2) ::
                      (rest2, m, d) :: fs) ([] :: acc :: accs) from by
                simp [placeLoop, hm]]
              rw [ih ts2 (some Macro.Ignore) gd2 ((rest2, m, d) :: fs) []
                  (acc :: accs) (by
                simp [framesMeasure_cons, wsizeList, TokenTree.wsize] at h ⊢
                omega)]
              rw [show rewriteSpec
                    (TokenTree.ident name :: TokenTree.group gd2 ts2 :: rest2)
                  = (rewriteSpec ts2).andThen fun out =>
                      match macroInvoke Macro.Ignore out with
                      | .error e => WalkRes.panic e
                      | .ok res =>
                        (rewriteSpec rest2).andThen fun r =>
                          WalkRes.ok (res ++ r) from by
                simp [rewriteSpec, hm]]
              cases hts : rewriteSpec ts2 with
              | panic e => simp [WalkRes.andThen]
              | diag dts => simp [WalkRes.andThen]
              | ok out =>
                simp only [WalkRes.andThen, List.nil_append]
                rw [show placeLoop
                      (([], some Macro.Ignore, gd2) :: (rest2, m, d) :: fs)
                      (out :: acc :: accs)
                    = placeLoop ((rest2, m, d) :: fs) (acc :: accs) from by
                  simp [placeLoop, macroInvoke, ignore]]
                rw [ih rest2 m d fs acc accs (by
                  simp [framesMeasure_cons, wsizeList, TokenTree.wsize] at h ⊢
                  omega)]
                simp [macroInvoke, ignore, WalkRes.andThen]
                cases rewriteSpec rest2 <;> simp [WalkRes.andThen]
            | ident iname =>
              cases hm2 : macroFromName iname with
              | none => simp [placeLoop, rewriteSpec, hm, hm2]
              | some mm =>
                cases mm
                case Dollar =>
                  rw [show placeLoop
                        ((TokenTree.ident name :: TokenTree.ident iname ::
                            rest2, m, d) :: fs) (acc :: accs)
                      = placeLoop ((rest2, m, d) :: fs) (acc :: accs) from by
                    simp [placeLoop, hm, hm2]]
                  rw [ih rest2 m d fs acc accs (by
                    simp [framesMeasure_cons, wsizeList, TokenTree.wsize]
                      at h ⊢
                    omega)]
                  rw [show rewriteSpec
                        (TokenTree.ident name :: TokenTree.ident iname :: rest2)
                      = rewriteSpec rest2 from by simp [rewriteSpec, hm, hm2]]
                all_goals
                  cases rest2 with
                  | nil => simp [placeLoop, rewriteSpec, hm, hm2]
                  | cons t3 rest3 =>
                    cases t3 with
                    | punct c3 sp3 => simp [placeLoop, rewriteSpec, hm, hm2]
                    | lit l3 => simp [placeLoop, rewriteSpec, hm, hm2]
                    | ident iname2 => simp [placeLoop, rewriteSpec, hm, hm2]
                    | group gd3 ts3 =>
                      rw [show placeLoop
                            ((TokenTree.ident name :: TokenTree.ident iname ::
                                TokenTree.group gd3 ts3 :: rest3, m, d) :: fs)
                            (acc :: accs)
                          = placeLoop ((ts3 ++ rest3, m, d) :: fs)
                            (acc :: accs) from by
                        simp [placeLoop, hm, hm2]]
                      rw [ih (ts3 ++ rest3) m d fs acc accs (by
                        simp [framesMeasure_cons, wsizeList, TokenTree.wsize,
                          wsizeList_append] at h ⊢
                        omega)]
                      rw [show rewriteSpec
                            (TokenTree.ident name :: TokenTree.ident iname ::
                              TokenTree.group gd3 ts3 :: rest3)
                          = rewriteSpec (ts3 ++ rest3) from by
                        simp [rewriteSpec, hm, hm2]]
        all_goals
          cases rest with
          | nil => simp [placeLoop, rewriteSpec, hm]
          | cons t2 rest2 =>
            cases t2 with
            | punct c2 sp2 => simp [placeLoop, rewriteSpec, hm]
            | lit l2 => simp [placeLoop, rewriteSpec, hm]
            | ident iname => simp [placeLoop, rewriteSpec, hm]
            | group gd2 ts2 =>
              have hpush : ∀ mo : Option Macro,
                  framesMeasure ((ts2, mo, gd2) :: (rest2, m, d) :: fs)
                    ≤ n := by
                intro mo
                simp [framesMeasure_cons, wsizeList, TokenTree.wsize] at h ⊢
                omega
              simp only [placeLoop, hm]
              rw [ih ts2 _ gd2 ((rest2, m, d) :: fs) [] (acc :: accs)
                  (hpush _)]
              simp only [rewriteSpec, hm]
              cases hts : rewriteSpec ts2 with
              | panic e => simp [WalkRes.andThen]
              | diag dts => simp [WalkRes.andThen]
              | ok out =>
                simp only [WalkRes.andThen, List.nil_append, placeLoop]
                split
                next e heq => rfl
                next res heq =>
                  rw [ih rest2 m d fs (acc ++ res) accs (by
                    simp [framesMeasure_cons, wsizeList, TokenTree.wsize]
                      at h ⊢
                    omega)]
                  cases rewriteSpec rest2 <;> simp [WalkRes.andThen]

/-- Top-level form of the correspondence: `place` equals the recursive
rewrite, with panics as `Except.error` and aborting diagnostics as the
whole (ok) result. -/
theorem place_eq_spec (input : TokenSeq) :
    place input =
      match rewriteSpec input with
      | .panic e => Except.error e
      | .diag ts => Except.ok ts
      | .ok out => Except.ok out := by
  unfold place
  rw [placeLoop_rewriteSpec (framesMeasure [(input, Option.none, Delim.none)])
    input Option.none Delim.none [] [] [] (le_refl _)]
  cases rewriteSpec input with
  | panic e => rfl
  | diag ts => rfl
  | ok out => simp [placeLoop]

/-- On marker-free input the recursive rewrite is the identity. -/
theorem rewriteSpec_markerFree (n : Nat) :
    ∀ s : TokenSeq, wsizeList s ≤ n → markerFreeList s = true →
      rewriteSpec s = .ok s := by
  induction n with
  | zero =>
    intro s h hf
    match s with
    | [] => simp [rewriteSpec]
    | t :: ts =>
      exfalso
      have h1 : 1 ≤ TokenTree.wsize t := by
        cases t <;> simp only [TokenTree.wsize] <;> omega
      simp only [wsizeList] at h
      omega
  | succ n ih =>
    intro s h hf
    match s with
    | [] => simp [rewriteSpec]
    | .punct ch sp :: rest =>
      simp only [markerFreeList, markerFree, Bool.true_and] at hf
      rw [show rewriteSpec (TokenTree.punct ch sp :: rest)
          = (rewriteSpec rest).andThen fun r => .ok (.punct ch sp :: r) from by
        simp [rewriteSpec]]
      rw [ih rest (by simp only [wsizeList, TokenTree.wsize] at h ⊢; omega) hf]
      simp [WalkRes.andThen]
    | .lit l :: rest =>
      simp only [markerFreeList, markerFree, Bool.true_and] at hf
      rw [show rewriteSpec (TokenTree.lit l :: rest)
          = (rewriteSpec rest).andThen fun r => .ok (.lit l :: r) from by
        simp [rewriteSpec]]
      rw [ih rest (by simp only [wsizeList, TokenTree.wsize] at h ⊢; omega) hf]
      simp [WalkRes.andThen]
    | .ident name :: rest =>
      simp only [markerFreeList, markerFree, Bool.and_eq_true,
        Option.isNone_iff_eq_none] at hf
      obtain ⟨hm, hrest⟩ := hf
      rw [show rewriteSpec (TokenTree.ident name :: rest)
          = (rewriteSpec rest).andThen fun r => .ok (.ident name :: r) from by
        simp [rewriteSpec, hm]]
      rw [ih rest (by simp only [wsizeList, TokenTree.wsize] at h ⊢; omega)
        hrest]
      simp [WalkRes.andThen]
    | .group gd ts :: rest =>
      simp only [markerFreeList, markerFree, Bool.and_eq_true] at hf
      obtain ⟨hts, hrest⟩ := hf
      rw [show rewriteSpec (TokenTree.group gd ts :: rest)
          = (rewriteSpec ts).andThen (fun out =>
              (rewriteSpec rest).andThen fun r =>
                .ok (.group gd out :: r)) from by
        simp [rewriteSpec]]
      rw [ih ts (by simp only [wsizeList, TokenTree.wsize] at h ⊢; omega) hts]
      rw [ih rest (by simp only [wsizeList, TokenTree.wsize] at h ⊢; omega)
        hrest]
      simp [WalkRes.andThen]

/-- C1: for every token sequence that contains no identifier whose
spelling is a recognized marker, `place` returns the sequence unchanged
(same tokens, same order, groups rebuilt with the same delimiter and
contents). -/
theorem place_passthrough_no_markers (s : TokenSeq)
    (h : markerFreeList s = true) : place s = .ok s := by
  rw [place_eq_spec s,
    rewriteSpec_markerFree (wsizeList s) s (le_refl _) h]

/-- Witness for C1 at a concrete marker-free sequence. -/
theorem place_passthrough_no_markers_witness :
    place [TokenTree.ident "foo", TokenTree.group Delim.brace
      [TokenTree.lit (Lit.int 7), TokenTree.punct '+' Spacing.joint]]
    = Except.ok [TokenTree.ident "foo", TokenTree.group Delim.brace
      [TokenTree.lit (Lit.int 7), TokenTree.punct '+' Spacing.joint]] :=
  place_passthrough_no_markers _ (by
    simp +decide [markerFreeList, markerFree, macroFromName])

/-- C2: refinement of the stack machine by the recursive innermost-first
rewrite: `place` equals `rewriteSpec`, in which every detected marker
builtin other than `identity` and `dollar` is invoked on the fully
rewritten contents of its argument group (nested markers resolved first),
panics surfacing as `Except.error` and aborting diagnostics as the whole
result. -/
theorem place_refines_innermost_rewrite (input : TokenSeq) :
    place input =
      match rewriteSpec input with
      | .panic e => Except.error e
      | .diag ts => Except.ok ts
      | .ok out => Except.ok out :=
  place_eq_spec input

/-- C3: the `identity` marker splices the contents of its argument group into
the output without any further rewriting, and the documented nested
example `__string__(1 __string__(2 __identity__(3 __string__(4))))`
yields the single string literal "123__string__4". -/
theorem identity_bypasses_rewriting :
    (∀ (gd : Delim) (ts rest : TokenSeq),
      rewriteSpec (.ident "__identity__" :: .group gd ts :: rest)
        = (rewriteSpec rest).andThen fun r => .ok (ts ++ r))
    ∧ place [.ident "__string__", .group .paren
        [.lit (.int 1), .ident "__string__", .group .paren
          [.lit (.int 2), .ident "__identity__", .group .paren
            [.lit (.int 3), .ident "__string__", .group .paren
              [.lit (.int 4)]]]]]
      = .ok [.lit (.str "123__string__4")] := by
  constructor
  · intro gd ts rest
    simp +decide [rewriteSpec, macroFromName]
  · simp +decide [place, placeLoop, macroFromName, macroInvoke, string,
      token_concat, tokenConcatLoop, dollar, identity, Except.map,
      show toString (1:Nat) = "1" from rfl,
      show toString (2:Nat) = "2" from rfl,
      show toString (3:Nat) = "3" from rfl,
      show toString (4:Nat) = "4" from rfl]

/-- C6: `dollar` on empty input returns exactly one stand-alone `$`
punctuation token; on any non-empty input it returns the `error_at`
diagnostic token sequence instead. -/
theorem dollar_zero_args :
    dollar [] = [TokenTree.punct '$' Spacing.alone]
    ∧ ∀ (t : TokenTree) (ts : TokenSeq),
        dollar (t :: ts) = errorAt "Macro `dollar` has no arguments." :=
  ⟨rfl, fun _ _ => rfl⟩

/-- C7: the literal decoder contributes the decimal digits of an integer
literal unsigned magnitude for every value below `2 ^ 128`, and signals
the "Integer is too large" error (a panic in the source, the
`Except.error` branch here) for any larger value. -/
theorem token_concat_int_bounds :
    (∀ n : Nat, n < 2 ^ 128 →
      token_concat [TokenTree.lit (Lit.int n)] = .ok (toString n))
    ∧ ∀ n : Nat, 2 ^ 128 ≤ n →
      token_concat [TokenTree.lit (Lit.int n)]
        = .error "Integer is too large" := by
  constructor
  · intro n hn
    simp [token_concat, tokenConcatLoop, hn]
    omega
  · intro n hn
    have hn2 : ¬ n < 2 ^ 128 := by omega
    simp [token_concat, tokenConcatLoop, hn2]
    omega

/-- Witness for C7 at 5 and at `2 ^ 128`. -/
theorem token_concat_int_bounds_witness :
    token_concat [TokenTree.lit (Lit.int 5)] = .ok (toString 5)
    ∧ token_concat [TokenTree.lit (Lit.int (2 ^ 128))]
      = .error "Integer is too large" :=
  ⟨token_concat_int_bounds.1 5 (by norm_num),
   token_concat_int_bounds.2 (2 ^ 128) (le_refl _)⟩

/-- The scan output of `start` followed by the fold result of `last`
rebuilds the input. -/
theorem startScan_concat (x : TokenTree) (xs : TokenSeq) :
    startScan x xs ++ [xs.foldl (fun _ c => c) x] = x :: xs := by
  induction xs generalizing x with
  | nil => simp [startScan]
  | cons y ys ih =>
    simp only [startScan, List.foldl, List.cons_append]
    rw [ih y]

/-- The scan of `start` computes `dropLast`. -/
theorem startScan_dropLast (x : TokenTree) (xs : TokenSeq) :
    startScan x xs = (x :: xs).dropLast := by
  induction xs generalizing x with
  | nil => simp [startScan]
  | cons y ys ih => simp [startScan, ih y]

/-- C9: for every non-empty token sequence, the concatenation of `start`
and `last` rebuilds the sequence; `start` returns the first `n - 1`
tokens in their original order (`dropLast`), and both return empty on
empty input. -/
theorem start_last_concat :
    (∀ (t : TokenTree) (ts : TokenSeq),
        start (t :: ts) ++ last (t :: ts) = t :: ts)
    ∧ (∀ s : TokenSeq, start s = s.dropLast)
    ∧ start [] = [] ∧ last ([] : TokenSeq) = [] := by
  refine ⟨fun t ts => ?_, fun s => ?_, rfl, rfl⟩
  · simp only [start, last]
    exact startScan_concat t ts
  · match s with
    | [] => rfl
    | t :: ts => simpa [start] using startScan_dropLast t ts

/-- C10: `get_str_lit` accepts a string literal through arbitrarily many
nested single-token groups; a group with zero or at least two tokens, or
a non-string-literal terminal, is rejected. -/
theorem get_str_lit_nested :
    (∀ (ds : List Delim) (s : String),
        get_str_lit (nestGroups ds (.lit (.str s))) = some s)
    ∧ (∀ d : Delim, get_str_lit (.group d []) = none)
    ∧ (∀ (d : Delim) (t1 t2 : TokenTree) (rest : TokenSeq),
        get_str_lit (.group d (t1 :: t2 :: rest)) = none)
    ∧ ∀ nm : String, get_str_lit (.ident nm) = none := by
  refine ⟨?_, fun d => rfl, fun d t1 t2 rest => rfl, fun nm => rfl⟩
  intro ds s
  induction ds with
  | nil => simp [nestGroups, get_str_lit]
  | cons d ds ih => simp [nestGroups, get_str_lit, ih]

/-- The two-state character loop of `replace_newline` computes
exactly the transformation described by the spec (`replaceNewlineSpec`). -/
theorem repnl_bridge (r : List Char) (n : Nat) :
    ∀ s : List Char, s.length ≤ n →
      repnlChars r s = replaceNewlineSpec r s ∧
      repnlSkip r s
        = replaceNewlineSpec r (s.dropWhile isRustWhitespace) := by
  induction n with
  | zero =>
    intro s h
    match s with
    | [] => simp [repnlChars, repnlSkip, replaceNewlineSpec, List.dropWhile]
    | c :: cs => simp at h
  | succ n ih =>
    intro s h
    match s with
    | [] => simp [repnlChars, repnlSkip, replaceNewlineSpec, List.dropWhile]
    | c :: cs =>
      have hcs := ih cs (by simp at h; omega)
      constructor
      · by_cases hc : c = '\n'
        · subst hc
          rw [show repnlChars r ('\n' :: cs) = r ++ repnlSkip r cs from by
            simp [repnlChars]]
          rw [show replaceNewlineSpec r ('\n' :: cs)
              = r ++ replaceNewlineSpec r (cs.dropWhile isRustWhitespace)
              from by simp [replaceNewlineSpec]]
          rw [hcs.2]
        · rw [show repnlChars r (c :: cs) = c :: repnlChars r cs from by
            simp [repnlChars, hc]]
          rw [show replaceNewlineSpec r (c :: cs)
              = c :: replaceNewlineSpec r cs from by
            simp [replaceNewlineSpec, hc]]
          rw [hcs.1]
      · by_cases hw : isRustWhitespace c = true
        · rw [show repnlSkip r (c :: cs) = repnlSkip r cs from by
            simp [repnlSkip, hw]]
          rw [show (c :: cs).dropWhile isRustWhitespace
              = cs.dropWhile isRustWhitespace from by
            simp [List.dropWhile, hw]]
          exact hcs.2
        · have hc : ¬ c = '\n' := by
            intro hcc
            subst hcc
            exact hw (by decide)
          rw [show repnlSkip r (c :: cs) = c :: repnlChars r cs from by
            simp [repnlSkip, hw]]
          rw [show (c :: cs).dropWhile isRustWhitespace = c :: cs from by
            simp [List.dropWhile, hw]]
          rw [show replaceNewlineSpec r (c :: cs)
              = c :: replaceNewlineSpec r cs from by
            simp [replaceNewlineSpec, hc]]
          rw [hcs.1]

/-- C5: for every pair of string-literal arguments, `replace_newline`
returns a single string literal equal to the text with each newline
character plus all immediately-following whitespace replaced by the
replacement text; in particular the documented example
`replace_newline("hello\n    every body\n", ", ")` yields
"hello, every body, ". -/
theorem replace_newline_correct :
    (∀ s r : String,
      replace_newline [.lit (.str s), .punct ',' .alone, .lit (.str r)]
        = [.lit (.str ⟨replaceNewlineSpec r.data s.data⟩)])
    ∧ replace_newline [.lit (.str "hello\n    every body\n"),
        .punct ',' .alone, .lit (.str ", ")]
      = [.lit (.str "hello, every body, ")] := by
  constructor
  · intro s r
    have hb := (repnl_bridge r.data s.data.length s.data (le_refl _)).1
    simp [replace_newline, replaceNewlineBody, get_str_lit, isComma, hb]
  · simp +decide [replace_newline, replaceNewlineBody, get_str_lit,
      isComma, repnlChars, repnlSkip, isRustWhitespace]

/-- For a pattern that never occurs as an infix, the non-overlapping
replace loop is the identity. -/
theorem replaceNE_not_infix (f t : List Char) :
    ∀ l : List Char, ¬ f <:+: l → replaceNE f t l = l := by
  intro l
  induction l with
  | nil =>
    intro _
    simp [replaceNE]
  | cons c cs ih =>
    intro h
    have hpre : f.isPrefixOf (c :: cs) = false := by
      by_contra hp
      simp only [Bool.not_eq_false] at hp
      exact h (List.isPrefixOf_iff_prefix.mp hp).isInfix
    rw [show replaceNE f t (c :: cs) = c :: replaceNE f t cs from by
      simp [replaceNE, hpre]]
    rw [ih fun hin => h (List.infix_cons hin)]

/-- `strFindReplace` (Rust `str::replace`) keeps the text unchanged when
the pattern does not occur in it. -/
theorem strFindReplace_not_infix (s f t : List Char) (h : ¬ f <:+: s) :
    strFindReplace s f t = s := by
  have hf : ¬ f = [] := by
    intro hfe
    subst hfe
    exact h List.nil_infix
  rw [strFindReplace, if_neg hf]
  exact replaceNE_not_infix f t s h

/-- C8: `str_replace` with a pattern absent from the text returns the
text unchanged; in general it applies the left-to-right non-overlapping
substring replace `strFindReplace`. -/
theorem str_replace_absent (s f t : String)
    (h : ¬ (f.data <:+: s.data)) :
    str_replace [.lit (.str s), .punct ',' .alone, .lit (.str f),
      .punct ',' .alone, .lit (.str t)] = [.lit (.str s)] := by
  obtain ⟨sd⟩ := s
  simp [str_replace, strReplaceBody, get_str_lit, isComma,
    strFindReplace_not_infix sd f.data t.data h]

/-- Witness for C8 at text "abc", pattern "x", replacement "y". -/
theorem str_replace_absent_witness :
    str_replace [.lit (.str "abc"), .punct ',' .alone, .lit (.str "x"),
      .punct ',' .alone, .lit (.str "y")] = [.lit (.str "abc")] :=
  str_replace_absent "abc" "x" "y" (by decide)

/-- C4 counterexample: at the concrete unknown specifier "bad", `to_case`
panics (the `Except.error` branch, `panic!` in `get_case`) instead of
returning a `compile_error` diagnostic token sequence, so the claim that
it "reports a diagnostic result and does not panic" is false on the
code. -/
theorem to_case_unknown_spec_counterexample :
    to_case [.lit (.str "bad"), .punct ',' .alone, .ident "x"]
      = .error "Unknown case specifier: \x27bad\x27" := by
  simp +decide [to_case, toCaseBody, get_str_lit, get_case, isComma,
    Except.map]

/-- C4 amended: for every specifier string other than the six case-style
spellings, `to_case` panics with the message naming the literal
specifier text (modelled as `Except.error`), rather than returning a
diagnostic token stream. -/
theorem to_case_unknown_spec_panics (spec idn : String)
    (h : spec ≠ "TOCASE" ∧ spec ≠ "tocase" ∧ spec ≠ "toCase"
      ∧ spec ≠ "ToCase" ∧ spec ≠ "to_case" ∧ spec ≠ "TO_CASE") :
    to_case [.lit (.str spec), .punct ',' .alone, .ident idn]
      = .error ("Unknown case specifier: \x27" ++ spec ++ "\x27") := by
  obtain ⟨h1, h2, h3, h4, h5, h6⟩ := h
  simp [to_case, toCaseBody, get_str_lit, isComma, get_case,
    Except.map, h1, h2, h3, h4, h5, h6]

/-- Witness for the amended C4 at specifier "bad" and identifier "x". -/
theorem to_case_unknown_spec_panics_witness :
    to_case [.lit (.str "bad"), .punct ',' .alone, .ident "x"]
      = .error ("Unknown case specifier: \x27" ++ "bad" ++ "\x27") :=
  to_case_unknown_spec_panics "bad" "x" (by decide)
